import Mathlib

/-!
Verification of the GridMap charting engine (src/GridMap.js) against its
natural-language specification.

The file shallowly embeds the parts of the source the claims are about:

* the component stack manager (`placeInStack` and its position recomputation),
* the axis model construction (`AxisModel.prototype.getNormalizedModel`),
* the color axis subsystem (`getColorBySeriesName`, the two
  `getStopsConfiguration` variants and `updatePreDrawingSpace`),
* the sparse data-model matrix (`set`, `unset`, the pending-update side
  table, and the event log) together with the `DELETE_BY_SID` interaction.

JavaScript numbers are modelled as exact rationals (`ℚ`); integer indices as
`ℕ`.  JavaScript objects used as string-keyed dictionaries are modelled as
association lists with single-binding update semantics.  Synchronous event
listener invocations are modelled as an append-only event log.
-/

namespace GridMap

/-! ### Component stack manager

Source: `componentStackManager` (GridMap.js, `placeInStack`,
`getStackItemByInstance`).  The manager keeps two stacks (vertical and
horizontal).  An entry (`StackOrder`) stores the placed component, its
reserved measurement and a computed position.  `placeInStack` splices the new
entry in at the requested order index and then recomputes every entry's
position as the running sum of reserved sizes (height for the vertical stack,
width for the horizontal one). -/

inductive StackName
  | V
  | H
deriving DecidableEq

/-- A measurement record `{height, width}`.  The source passes objects that
may mention only one of the two fields; the stack only ever reads the field
selected by the stack axis, so the unused field is modelled as `0`. -/
structure Measurement where
  height : ℚ
  width : ℚ
deriving DecidableEq

/-- `measurementKey` selection: the vertical stack sums heights, the
horizontal stack sums widths (`stackName === stackKeys.VERTICAL ? 'height' :
'width'`). -/
def Measurement.select (m : Measurement) : StackName → ℚ
  | .V => m.height
  | .H => m.width

/-- One stack entry: `StackOrder(instance, measurement)` with `pos`
initialised to 0.  Component instances are identified by a numeric tag. -/
structure StackOrder where
  inst : Nat
  measurement : Measurement
  pos : ℚ
deriving DecidableEq

/-- The position recomputation loop of `placeInStack`:
`stackItem.pos = index ? cumulativeSum : 0; cumulativeSum +=
stackItem.measurement[measurementKey]`. -/
def recomputePositions (key : StackName) : ℚ → Nat → List StackOrder → List StackOrder
  | _, _, [] => []
  | c, idx, s :: rest =>
    { s with pos := if idx = 0 then 0 else c } ::
      recomputePositions key (c + s.measurement.select key) (idx + 1) rest

/-- `placeInStack(stackName, i)(instance, measurement)`: splice the new
`StackOrder` in at index `i` (like `Array.prototype.splice`, an index past the
end appends) and recompute all positions. -/
def placeInStack (key : StackName) (stack : List StackOrder) (i : Nat)
    (inst : Nat) (m : Measurement) : List StackOrder :=
  recomputePositions key 0 0 (stack.take i ++ [⟨inst, m, 0⟩] ++ stack.drop i)

/-- Specification-style positions: entry `k` sits at the sum of the reserved
sizes of entries `0..k-1`. -/
def positionsOfSizes (sizes : List ℚ) : List ℚ :=
  (List.range sizes.length).map (fun k => (sizes.take k).sum)

/-- A whole insertion sequence: each operation is
`(orderIndex, instanceTag, measurement)`, applied to an initially empty
stack. -/
def applyStackOps (key : StackName) (ops : List (Nat × Nat × Measurement)) :
    List StackOrder :=
  ops.foldl (fun st op => placeInStack key st op.1 op.2.1 op.2.2) []

theorem recomputePositions_sizes (key : StackName) :
    ∀ (l : List StackOrder) (c : ℚ) (idx : Nat),
      (recomputePositions key c idx l).map (fun s => s.measurement.select key) =
        l.map (fun s => s.measurement.select key) := by
  intro l
  induction l with
  | nil => intro c idx; rfl
  | cons s rest ih =>
    intro c idx
    simp only [recomputePositions, List.map_cons, ih]

theorem recomputePositions_pos_ne_zero (key : StackName) :
    ∀ (l : List StackOrder) (c : ℚ) (idx : Nat), idx ≠ 0 →
      (recomputePositions key c idx l).map StackOrder.pos =
        (List.range l.length).map
          (fun k => c + ((l.map (fun s => s.measurement.select key)).take k).sum) := by
  intro l
  induction l with
  | nil => intro c idx _; simp [recomputePositions]
  | cons s rest ih =>
    intro c idx hidx
    simp only [recomputePositions, List.map_cons, List.length_cons,
      List.range_succ_eq_map, List.map_map, if_neg hidx]
    congr 1
    · simp
    rw [ih (c + s.measurement.select key) (idx + 1) (Nat.succ_ne_zero idx)]
    apply List.map_congr_left
    intro k _
    simp [Function.comp, List.take_succ_cons, add_assoc]

theorem recomputePositions_pos_zero (key : StackName) (l : List StackOrder) :
    (recomputePositions key 0 0 l).map StackOrder.pos =
      positionsOfSizes (l.map (fun s => s.measurement.select key)) := by
  cases l with
  | nil => simp [recomputePositions, positionsOfSizes]
  | cons s rest =>
    simp only [recomputePositions, List.map_cons, positionsOfSizes,
      List.length_map, List.length_cons, List.range_succ_eq_map, List.map_map]
    congr 1
    rw [recomputePositions_pos_ne_zero key rest (0 + s.measurement.select key) 1
      (Nat.one_ne_zero)]
    apply List.map_congr_left
    intro k _
    simp [Function.comp, List.take_succ_cons]

theorem placeInStack_positions (key : StackName) (stack : List StackOrder)
    (i : Nat) (inst : Nat) (m : Measurement) :
    (placeInStack key stack i inst m).map StackOrder.pos =
      positionsOfSizes
        ((placeInStack key stack i inst m).map (fun s => s.measurement.select key)) := by
  unfold placeInStack
  rw [recomputePositions_sizes]
  exact recomputePositions_pos_zero key _

/-- C1: For every sequence of `placeInStack` insertions into one stack
(vertical or horizontal), after each insertion the entry at array index 0 has
position 0, and every entry at array index `k > 0` has position equal to the
sum of the reserved sizes (height for the vertical stack, width for the
horizontal stack) of the entries at indices `0..k-1`, regardless of the order
indices at which the entries were inserted.  Stated for every operation
sequence (so in particular after each insertion of any longer sequence, by
instantiating with the corresponding prefix); `positionsOfSizes` makes entry
`k`'s position the sum of the sizes of entries `0..k-1` and entry 0's
position `0`. -/
theorem claim1_stack_positions (key : StackName)
    (ops : List (Nat × Nat × Measurement)) :
    (applyStackOps key ops).map StackOrder.pos =
      positionsOfSizes
        ((applyStackOps key ops).map (fun s => s.measurement.select key)) := by
  induction ops using List.reverseRecOn with
  | nil => simp [applyStackOps, positionsOfSizes]
  | append_singleton init op _ =>
    unfold applyStackOps
    rw [List.foldl_append]
    exact placeInStack_positions key _ _ _ _

/-! ### Data model matrix

Source: `DataModelMatrix` (fields `_matrix`, `_updateMatrix`, `eventMap`),
`DataGraphicsHandler` (its `series` list and `removeSeries`), `Series`
(`name`, `cells`, the global `Series.instances` registry and
`Series.getSeriesById`), and the `interactionManager`'s `DELETE_BY_SID`
action.

A matrix cell holds either the falsy placeholder `0` or a
`DataGraphicsHandler`; the handler is modelled by its ordered list of
contributing series, each series represented by a numeric identity tag (the
source compares series by object identity, `===`).  The pending-update side
table `_updateMatrix` is a string-keyed dictionary mapping
`i.toString() + j` to the triple `[i, j, value]`; it is modelled as an
association list with JavaScript single-binding update semantics.  Event
listener invocations (`eSet(i, j, val)`, `fireEvent('end')`) are modelled as
an append-only log.  In the source the handler stored in the side table is
the same object as the one stored in the matrix cell; the claims below only
read the side-table view, which the model tracks. -/

inductive CellValue
  | zero
  | handler (series : List Nat)
deriving DecidableEq

/-- JavaScript truthiness of a cell value: the placeholder `0` is falsy, a
`DataGraphicsHandler` object is truthy (even with an empty series list). -/
def CellValue.truthy : CellValue → Bool
  | .zero => false
  | .handler _ => true

abbrev UpdateEntry := Nat × Nat × CellValue

abbrev UpdateTable := List (String × UpdateEntry)

inductive MEvent
  | setEv (i j : Nat) (v : CellValue)
  | unsetEv
  | endEv
deriving DecidableEq

structure MatrixState where
  matrix : List (List CellValue)
  updateTable : UpdateTable
  log : List MEvent
deriving DecidableEq

/-- The side-table key: `i.toString() + j` (decimal string concatenation). -/
def cellKey (i j : Nat) : String := Nat.repr i ++ Nat.repr j

/-- First-binding lookup in the string-keyed dictionary. -/
def lookupTable (tbl : UpdateTable) (k : String) : Option UpdateEntry :=
  match tbl with
  | [] => none
  | (k', v) :: rest => if k' = k then some v else lookupTable rest k

/-- Overwrite the binding of an existing key in place (the binding keeps its
position and key; only the value changes). -/
def replaceTable : UpdateTable → String → UpdateEntry → UpdateTable
  | [], _, _ => []
  | (k', v') :: rest, k, v => (k', if k' = k then v else v') :: replaceTable rest k v

/-- JavaScript property assignment `updateM[key] = entry`: overwrite the
binding if the key exists (keeping its place), otherwise append it. -/
def upsertTable (tbl : UpdateTable) (k : String) (v : UpdateEntry) : UpdateTable :=
  if (lookupTable tbl k).isSome then replaceTable tbl k v else tbl ++ [(k, v)]

/-- JavaScript array index assignment `l[j] = v`: in-range writes overwrite,
a write one-or-more slots past the end extends the array.  (The program only
ever writes sequentially, so the filler default for skipped slots is never
observable; it is the falsy placeholder.) -/
def listSetExt (l : List CellValue) (j : Nat) (v : CellValue) : List CellValue :=
  if j < l.length then l.set j v
  else l ++ List.replicate (j - l.length) CellValue.zero ++ [v]

/-- `DataModelMatrix.prototype.set(i, val)` (two-argument form):
`matrix[i] = val`.  Rows are created sequentially (`i` equal to the current
row count), which appends. -/
def setRow (st : MatrixState) (i : Nat) (row : List CellValue) : MatrixState :=
  { st with matrix :=
      if i < st.matrix.length then st.matrix.set i row
      else st.matrix ++ List.replicate (i - st.matrix.length) [] ++ [row] }

/-- `DataModelMatrix.prototype.get(i, j)`: read `matrix[i][j]` (an absent
cell reads as the falsy placeholder). -/
def get2 (st : MatrixState) (i j : Nat) : CellValue :=
  (st.matrix.getD i []).getD j CellValue.zero

/-- `DataModelMatrix.prototype.set(i, j, fn)` (three-argument form): read the
previous cell value `matrix[i][j]`, write `fn(previous)`, record the update
in the side table iff the new value is truthy, and invoke the `set` listener
synchronously. -/
def set3 (st : MatrixState) (i j : Nat) (f : CellValue → CellValue) : MatrixState :=
  { matrix := st.matrix.set i (listSetExt (st.matrix.getD i []) j (f (get2 st i j)))
    updateTable :=
      if (f (get2 st i j)).truthy then
        upsertTable st.updateTable (cellKey i j) (i, j, f (get2 st i j))
      else st.updateTable
    log := st.log ++ [MEvent.setEv i j (f (get2 st i j))] }

/-- `DatasetParser.prototype.getDataModelMatrix`: create each row and fill
every cell with the falsy placeholder through `set(i, j, () => 0)`. -/
def getDataModelMatrix (rows cols : Nat) : MatrixState :=
  (List.range rows).foldl
    (fun st i =>
      (List.range cols).foldl (fun st2 j => set3 st2 i j (fun _ => CellValue.zero))
        (setRow st i []))
    ⟨[], [], []⟩

theorem lookupTable_replace_self (tbl : UpdateTable) (k : String) (v : UpdateEntry)
    (h : (lookupTable tbl k).isSome) :
    lookupTable (replaceTable tbl k v) k = some v := by
  induction tbl with
  | nil => simp [lookupTable] at h
  | cons p rest ih =>
    obtain ⟨a, b⟩ := p
    by_cases hp : a = k
    · simp [replaceTable, lookupTable, hp]
    · have h' : (lookupTable rest k).isSome := by
        simpa [lookupTable, hp] using h
      simp [replaceTable, lookupTable, hp, ih h']

theorem lookupTable_replace_ne (tbl : UpdateTable) (k k' : String) (v : UpdateEntry)
    (h : k' ≠ k) :
    lookupTable (replaceTable tbl k v) k' = lookupTable tbl k' := by
  induction tbl with
  | nil => rfl
  | cons p rest ih =>
    obtain ⟨a, b⟩ := p
    have hk : ¬(k = k') := fun hh => h hh.symm
    by_cases hp' : a = k'
    · have hp : ¬(a = k) := fun hh => h (hp'.symm.trans hh)
      simp [replaceTable, lookupTable, hp, hp', h]
    · by_cases hp : a = k
      · simp [replaceTable, lookupTable, hp, hp', hk, ih]
      · simp [replaceTable, lookupTable, hp, hp', ih]

theorem lookupTable_append_single (tbl : UpdateTable) (k : String) (v : UpdateEntry)
    (h : lookupTable tbl k = none) :
    lookupTable (tbl ++ [(k, v)]) k = some v := by
  induction tbl with
  | nil => simp [lookupTable]
  | cons p rest ih =>
    obtain ⟨a, b⟩ := p
    by_cases hp : a = k
    · simp [lookupTable, hp] at h
    · simp only [List.cons_append, lookupTable, if_neg hp] at h ⊢
      exact ih h

theorem lookupTable_upsert_self (tbl : UpdateTable) (k : String) (v : UpdateEntry) :
    lookupTable (upsertTable tbl k v) k = some v := by
  unfold upsertTable
  by_cases h : (lookupTable tbl k).isSome
  · rw [if_pos h]; exact lookupTable_replace_self tbl k v h
  · rw [if_neg h]
    exact lookupTable_append_single tbl k v (by
      cases hl : lookupTable tbl k
      · rfl
      · rw [hl] at h; simp at h)

theorem getD_set_self {α : Type} (l : List α) (i : Nat) (a d : α)
    (h : i < l.length) : (l.set i a).getD i d = a := by
  induction l generalizing i with
  | nil => simp at h
  | cons b rest ih =>
    cases i with
    | zero => rfl
    | succ n =>
      simp only [List.set_cons_succ, List.getD_cons_succ]
      exact ih n (Nat.lt_of_succ_lt_succ h)

theorem getD_listSetExt_self (l : List CellValue) (j : Nat) (v : CellValue)
    (h : j < l.length) : (listSetExt l j v).getD j CellValue.zero = v := by
  unfold listSetExt
  rw [if_pos h]
  exact getD_set_self l j v _ h

/-- C2: `set(i, j, f)` writes `f(previous)` into cell `(i, j)`, records
`[i, j, f(previous)]` in the pending-update side table under the key
`i.toString() + j` iff `f(previous)` is truthy (a falsy result leaves the
side table unchanged), and synchronously invokes the registered `set`
listener with `(i, j, f(previous))` — modelled as appending the `set` event
to the log. -/
theorem claim2_set_cell (st : MatrixState) (i j : Nat) (f : CellValue → CellValue)
    (hi : i < st.matrix.length) (hj : j < (st.matrix.getD i []).length) :
    get2 (set3 st i j f) i j = f (get2 st i j)
    ∧ ((f (get2 st i j)).truthy = true →
        lookupTable (set3 st i j f).updateTable (cellKey i j) =
          some (i, j, f (get2 st i j)))
    ∧ ((f (get2 st i j)).truthy = false →
        (set3 st i j f).updateTable = st.updateTable)
    ∧ (set3 st i j f).log = st.log ++ [MEvent.setEv i j (f (get2 st i j))] := by
  refine ⟨?_, ?_, ?_, ?_⟩
  · show ((st.matrix.set i (listSetExt (st.matrix.getD i []) j (f (get2 st i j)))).getD i
        []).getD j CellValue.zero = f (get2 st i j)
    rw [getD_set_self st.matrix i _ _ hi]
    exact getD_listSetExt_self _ j _ hj
  · intro ht
    show lookupTable
        (if (f (get2 st i j)).truthy then
          upsertTable st.updateTable (cellKey i j) (i, j, f (get2 st i j))
        else st.updateTable) (cellKey i j) = some (i, j, f (get2 st i j))
    rw [ht, if_pos rfl]
    exact lookupTable_upsert_self _ _ _
  · intro ht
    show (if (f (get2 st i j)).truthy then
        upsertTable st.updateTable (cellKey i j) (i, j, f (get2 st i j))
      else st.updateTable) = st.updateTable
    rw [ht, if_neg (by simp)]
  · rfl

/-- Witness for C2 at a concrete state: a 2×2 zero matrix, a truthy update at
cell (0, 1) writing a handler for series 5. -/
theorem claim2_set_cell_witness :
    get2 (set3 ⟨[[CellValue.zero, CellValue.zero], [CellValue.zero, CellValue.zero]], [], []⟩
        0 1 (fun _ => CellValue.handler [5])) 0 1 = CellValue.handler [5]
    ∧ lookupTable
        (set3 ⟨[[CellValue.zero, CellValue.zero], [CellValue.zero, CellValue.zero]], [], []⟩
          0 1 (fun _ => CellValue.handler [5])).updateTable (cellKey 0 1) =
        some (0, 1, CellValue.handler [5])
    ∧ (set3 ⟨[[CellValue.zero, CellValue.zero], [CellValue.zero, CellValue.zero]], [], []⟩
        0 1 (fun _ => CellValue.handler [5])).log =
        [MEvent.setEv 0 1 (CellValue.handler [5])] := by
  obtain ⟨h1, h2, _, h4⟩ := claim2_set_cell
    ⟨[[CellValue.zero, CellValue.zero], [CellValue.zero, CellValue.zero]], [], []⟩
    0 1 (fun _ => CellValue.handler [5]) (by decide) (by decide)
  exact ⟨h1, h2 rfl, h4⟩

/-! ### Series registry, `unset` and the `DELETE_BY_SID` interaction

`Series` instances are compared by object identity in the source
(`allSeries[index] === seriesInstance`); the model gives each series a
numeric identity tag `sid`.  `Series.getSeriesById` scans the global registry
and returns the first series whose `name` matches.

`DataModelMatrix.prototype.unset(series)` walks the series' own cell list;
for each cell it reads `updateM[i.toString() + j][2]` — the
`DataGraphicsHandler` recorded in the pending-update side table — and calls
`removeSeries` on it (which removes the first identical series entry).  A
missing side-table entry (or a non-handler value) makes the source fault on
an undefined access, modelled as `none`.  After the loop a single `end`
event is fired; no `set` or `unset` event is fired per cell. -/

structure Series where
  sid : Nat
  name : String
  cells : List (Nat × Nat)
deriving DecidableEq

/-- `Series.getSeriesById`: linear scan of the registry, first name match. -/
def getSeriesById (registry : List Series) (id : String) : Option Series :=
  registry.find? (fun s => s.name = id)

/-- `DataGraphicsHandler.prototype.removeSeries`: remove the first occurrence
of the series (identity comparison) from the handler's series list. -/
def removeSeries (h : List Nat) (sid : Nat) : List Nat := h.erase sid

/-- One iteration of the `unset` loop for cell `c`:
`updateM[i.toString() + j][2].removeSeries(series)`. -/
def unsetCellStep (tbl : UpdateTable) (sid : Nat) (c : Nat × Nat) : Option UpdateTable :=
  match lookupTable tbl (cellKey c.1 c.2) with
  | some (i, j, CellValue.handler h) =>
    some (replaceTable tbl (cellKey c.1 c.2) (i, j, CellValue.handler (removeSeries h sid)))
  | some (_, _, CellValue.zero) => none
  | none => none

/-- The whole `unset` loop over the series' cell list. -/
def unsetFold (tbl : UpdateTable) (sid : Nat) : List (Nat × Nat) → Option UpdateTable
  | [] => some tbl
  | c :: rest =>
    match unsetCellStep tbl sid c with
    | none => none
    | some tbl' => unsetFold tbl' sid rest

/-- `DataModelMatrix.prototype.unset(series)`: process every cell in the
series' cell list, then fire exactly one `end` event. -/
def unset (st : MatrixState) (s : Series) : Option MatrixState :=
  (unsetFold st.updateTable s.sid s.cells).map
    (fun tbl' => { st with updateTable := tbl', log := st.log ++ [MEvent.endEv] })

/-- `interactionManager`'s `DELETE_BY_SID` action: look the series up by id
in the global registry and call `unset` on the data model matrix.  An
unknown id makes the source fault (`undefined.cells`), modelled as `none`. -/
def deleteBySeriesId (registry : List Series) (st : MatrixState) (id : String) :
    Option MatrixState :=
  match getSeriesById registry id with
  | some s => unset st s
  | none => none

/-- The number of occurrences of series `sid` in the handler recorded in the
side table under key `k` (0 when the key is absent or holds no handler). -/
def countAtKey (tbl : UpdateTable) (k : String) (sid : Nat) : Nat :=
  match lookupTable tbl k with
  | some (_, _, CellValue.handler h) => h.count sid
  | _ => 0

/-- Whether the side table holds a handler entry under key `k`. -/
def isHandlerEntry : Option UpdateEntry → Bool
  | some (_, _, CellValue.handler _) => true
  | _ => false

theorem countAtKey_eq_of_lookup (tbl : UpdateTable) (k : String) (sid : Nat)
    (i j : Nat) (h : List Nat)
    (hl : lookupTable tbl k = some (i, j, CellValue.handler h)) :
    countAtKey tbl k sid = h.count sid := by
  unfold countAtKey
  rw [hl]

theorem unsetFold_spec (sid : Nat) :
    ∀ (cells : List (Nat × Nat)) (tbl : UpdateTable),
      (∀ c ∈ cells, isHandlerEntry (lookupTable tbl (cellKey c.1 c.2)) = true) →
      (∀ c ∈ cells, ∀ c' ∈ cells, cellKey c.1 c.2 = cellKey c'.1 c'.2 → c = c') →
      (∀ c ∈ cells, countAtKey tbl (cellKey c.1 c.2) sid = cells.count c) →
      ∃ tbl', unsetFold tbl sid cells = some tbl'
        ∧ (∀ c ∈ cells, countAtKey tbl' (cellKey c.1 c.2) sid = 0)
        ∧ (∀ k, (∀ c ∈ cells, cellKey c.1 c.2 ≠ k) →
            lookupTable tbl' k = lookupTable tbl k) := by
  intro cells
  induction cells with
  | nil =>
    intro tbl _ _ _
    exact ⟨tbl, rfl, by simp, fun k _ => rfl⟩
  | cons c rest ih =>
    intro tbl hhand hinj hcnt
    obtain ⟨i', j', h0, hlk⟩ : ∃ i' j' h0,
        lookupTable tbl (cellKey c.1 c.2) = some (i', j', CellValue.handler h0) := by
      have := hhand c (List.mem_cons_self c rest)
      cases hl : lookupTable tbl (cellKey c.1 c.2) with
      | none => rw [hl] at this; simp [isHandlerEntry] at this
      | some e =>
        obtain ⟨i', j', v⟩ := e
        cases v with
        | zero => rw [hl] at this; simp [isHandlerEntry] at this
        | handler h0 => exact ⟨i', j', h0, rfl⟩
    have hstep : unsetCellStep tbl sid c =
        some (replaceTable tbl (cellKey c.1 c.2)
          (i', j', CellValue.handler (removeSeries h0 sid))) := by
      unfold unsetCellStep
      rw [hlk]
    set tbl1 := replaceTable tbl (cellKey c.1 c.2)
      (i', j', CellValue.handler (removeSeries h0 sid)) with htbl1
    have hlk1 : lookupTable tbl1 (cellKey c.1 c.2) =
        some (i', j', CellValue.handler (removeSeries h0 sid)) :=
      lookupTable_replace_self tbl _ _ (by rw [hlk]; rfl)
    have hother : ∀ k, k ≠ cellKey c.1 c.2 → lookupTable tbl1 k = lookupTable tbl k :=
      fun k hk => lookupTable_replace_ne tbl _ k _ hk
    have hc0 : h0.count sid = rest.count c + 1 := by
      have hx := hcnt c (List.mem_cons_self c rest)
      rw [List.count_cons_self, countAtKey_eq_of_lookup tbl _ sid i' j' h0 hlk] at hx
      exact hx
    have hcnt1 : countAtKey tbl1 (cellKey c.1 c.2) sid = rest.count c := by
      rw [countAtKey_eq_of_lookup tbl1 _ sid i' j' (removeSeries h0 sid) hlk1]
      simp only [removeSeries, List.count_erase_self]
      omega
    have hhand' : ∀ c' ∈ rest, isHandlerEntry (lookupTable tbl1 (cellKey c'.1 c'.2)) = true := by
      intro c' hc'
      by_cases hkeq : cellKey c'.1 c'.2 = cellKey c.1 c.2
      · rw [hkeq, hlk1]; rfl
      · rw [hother _ hkeq]
        exact hhand c' (List.mem_cons_of_mem c hc')
    have hinj' : ∀ c' ∈ rest, ∀ c'' ∈ rest,
        cellKey c'.1 c'.2 = cellKey c''.1 c''.2 → c' = c'' :=
      fun c' hc' c'' hc'' => hinj c' (List.mem_cons_of_mem c hc') c''
        (List.mem_cons_of_mem c hc'')
    have hcnt' : ∀ c' ∈ rest, countAtKey tbl1 (cellKey c'.1 c'.2) sid = rest.count c' := by
      intro c' hc'
      by_cases hkeq : cellKey c'.1 c'.2 = cellKey c.1 c.2
      · have hceq : c' = c := hinj c' (List.mem_cons_of_mem c hc') c
          (List.mem_cons_self c rest) hkeq
        rw [hceq, hcnt1]
      · have hne : c' ≠ c := fun hcc => hkeq (by rw [hcc])
        unfold countAtKey
        rw [hother _ hkeq]
        have := hcnt c' (List.mem_cons_of_mem c hc')
        unfold countAtKey at this
        rw [this]
        rw [List.count_cons_of_ne hne]
    obtain ⟨tbl2, hfold2, hzero2, hpre2⟩ := ih tbl1 hhand' hinj' hcnt'
    refine ⟨tbl2, ?_, ?_, ?_⟩
    · unfold unsetFold
      rw [hstep]
      exact hfold2
    · intro c' hc'
      rcases List.mem_cons.mp hc' with hceq | hcr
      · rw [hceq]
        by_cases hmem : c ∈ rest
        · exact hzero2 c hmem
        · have hkeys : ∀ c'' ∈ rest, cellKey c''.1 c''.2 ≠ cellKey c.1 c.2 := by
            intro c'' hc'' hkeq
            have hcc : c'' = c := hinj c'' (List.mem_cons_of_mem c hc'') c
              (List.mem_cons_self c rest) hkeq
            exact hmem (hcc ▸ hc'')
          have hl2 : lookupTable tbl2 (cellKey c.1 c.2) =
              some (i', j', CellValue.handler (removeSeries h0 sid)) := by
            rw [hpre2 _ hkeys, hlk1]
          rw [countAtKey_eq_of_lookup tbl2 _ sid i' j' _ hl2]
          simp only [removeSeries, List.count_erase_self]
          have hz : rest.count c = 0 := List.count_eq_zero.mpr hmem
          omega
      · exact hzero2 c' hcr
    · intro k hk
      have h1 : lookupTable tbl2 k = lookupTable tbl1 k :=
        hpre2 k (fun c' hc' => hk c' (List.mem_cons_of_mem c hc'))
      rw [h1, hother k (fun hke => hk c (List.mem_cons_self c rest) hke.symm)]


/-- C4: For every registered series whose every cell in its own cell list has
a handler entry in the pending-update side table, performing the
`DELETE_BY_SID` action (which resolves the series by id and calls `unset`)
removes that series from the `DataGraphicsHandler` recorded for every cell in
the series' cell list, and fires the `end` event exactly once for the whole
batch — no `set` or `unset` event is fired per cell (the event log grows by
exactly `[endEv]`).  The state hypotheses express the data-structure
invariant established by the dataset parser: distinct cells of the series
have distinct side-table keys, and the handler recorded for a cell mentions
the series once per occurrence of that cell in the series' cell list. -/
theorem claim4_delete_by_sid (registry : List Series) (st : MatrixState)
    (id : String) (s : Series)
    (hreg : getSeriesById registry id = some s)
    (hhand : ∀ c ∈ s.cells,
      isHandlerEntry (lookupTable st.updateTable (cellKey c.1 c.2)) = true)
    (hinj : ∀ c ∈ s.cells, ∀ c' ∈ s.cells,
      cellKey c.1 c.2 = cellKey c'.1 c'.2 → c = c')
    (hcnt : ∀ c ∈ s.cells,
      countAtKey st.updateTable (cellKey c.1 c.2) s.sid = s.cells.count c) :
    ∃ st', deleteBySeriesId registry st id = some st'
      ∧ deleteBySeriesId registry st id = unset st s
      ∧ (∀ c ∈ s.cells, countAtKey st'.updateTable (cellKey c.1 c.2) s.sid = 0)
      ∧ st'.log = st.log ++ [MEvent.endEv]
      ∧ st'.matrix = st.matrix := by
  obtain ⟨tbl', hfold, hzero, _⟩ := unsetFold_spec s.sid s.cells st.updateTable hhand hinj hcnt
  have hdel : deleteBySeriesId registry st id = unset st s := by
    unfold deleteBySeriesId
    rw [hreg]
  refine ⟨{ st with updateTable := tbl', log := st.log ++ [MEvent.endEv] }, ?_, hdel, ?_, rfl, rfl⟩
  · rw [hdel]
    unfold unset
    rw [hfold]
    rfl
  · exact hzero

/-- Witness for C4: a registry with one series (`sid` 7, name "A", cells
(0,0) and (1,1)), a side table holding a handler for each cell; the delete
interaction empties series 7 from both handlers and appends one `end`
event. -/
theorem claim4_delete_by_sid_witness :
    deleteBySeriesId [⟨7, "A", [(0, 0), (1, 1)]⟩]
        ⟨[], [(cellKey 0 0, (0, 0, CellValue.handler [7])),
              (cellKey 1 1, (1, 1, CellValue.handler [3, 7]))], []⟩ "A" =
      some ⟨[], [(cellKey 0 0, (0, 0, CellValue.handler [])),
                 (cellKey 1 1, (1, 1, CellValue.handler [3]))], [MEvent.endEv]⟩
    ∧ countAtKey [(cellKey 0 0, (0, 0, CellValue.handler [])),
                  (cellKey 1 1, (1, 1, CellValue.handler [3]))] (cellKey 0 0) 7 = 0
    ∧ countAtKey [(cellKey 0 0, (0, 0, CellValue.handler [])),
                  (cellKey 1 1, (1, 1, CellValue.handler [3]))] (cellKey 1 1) 7 = 0 := by
  obtain ⟨st', h1, _, h3, h4, h5⟩ := claim4_delete_by_sid [⟨7, "A", [(0, 0), (1, 1)]⟩]
    ⟨[], [(cellKey 0 0, (0, 0, CellValue.handler [7])),
          (cellKey 1 1, (1, 1, CellValue.handler [3, 7]))], []⟩ "A"
    ⟨7, "A", [(0, 0), (1, 1)]⟩
    (by decide) (by decide) (by decide) (by decide)
  have hev : deleteBySeriesId [⟨7, "A", [(0, 0), (1, 1)]⟩]
      ⟨[], [(cellKey 0 0, (0, 0, CellValue.handler [7])),
            (cellKey 1 1, (1, 1, CellValue.handler [3, 7]))], []⟩ "A" =
      some ⟨[], [(cellKey 0 0, (0, 0, CellValue.handler [])),
                 (cellKey 1 1, (1, 1, CellValue.handler [3]))], [MEvent.endEv]⟩ := by
    decide
  have hst : st' = ⟨[], [(cellKey 0 0, (0, 0, CellValue.handler [])),
      (cellKey 1 1, (1, 1, CellValue.handler [3]))], [MEvent.endEv]⟩ :=
    Option.some.inj (h1.symm.trans hev)
  refine ⟨hev, ?_, ?_⟩
  · have := h3 (0, 0) (by decide)
    rw [hst] at this
    exact this
  · have := h3 (1, 1) (by decide)
    rw [hst] at this
    exact this

/-- The state of the C10 scenario: a 13×24 zero matrix, then a truthy `set`
at cell (1, 23) recording series 1, then a truthy `set` at cell (12, 3)
recording series 2. -/
def collisionState : MatrixState :=
  set3 (set3 ⟨List.replicate 13 (List.replicate 24 CellValue.zero), [], []⟩
      1 23 (fun _ => CellValue.handler [1]))
    12 3 (fun _ => CellValue.handler [2])

/-- C10: the side-table key (string concatenation of `i` and `j`) does not
uniquely identify a cell: the distinct cells (1, 23) and (12, 3) share the
key "123", so after truthy `set` calls on both cells the side table holds a
single entry for that key, recording only the later cell (12, 3); and a
subsequent `unset` step touching the other cell (1, 23) reads (and updates)
that shared entry. -/
theorem claim10_key_collision :
    cellKey 1 23 = cellKey 12 3
    ∧ ((1, 23) : Nat × Nat) ≠ (12, 3)
    ∧ (collisionState.updateTable.filter (fun p => p.1 == cellKey 1 23)).length = 1
    ∧ lookupTable collisionState.updateTable (cellKey 1 23) =
        some (12, 3, CellValue.handler [2])
    ∧ unsetCellStep collisionState.updateTable 2 (1, 23) =
        some (replaceTable collisionState.updateTable (cellKey 12 3)
          (12, 3, CellValue.handler [])) := by
  decide

/-! ### Axis model construction

Source: `AxisModel.prototype.getNormalizedModel`.  All rows of all series of
the dataset are flattened in dataset order; each row is projected through the
configured `key` (a missing key reads as JavaScript `undefined`, modelled as
`none`); a `Set` deduplicates the values preserving first-occurrence order;
finally the optional `model` hook is applied and its return value wins only
if it is itself truthy (`(modelUpdateFn && typeof modelUpdateFn === 'function'
&& modelUpdateFn(model)) || model`).  The default configuration installs the
identity function `DEF_FN` as the hook.  A JavaScript array is truthy even
when empty, so a hook returning an array always wins; the falsy values
(`0`, `null`, `undefined`, `''`, `false`) fall back to the deduplicated
model. -/

section AxisModelSection

variable {α : Type} [DecidableEq α]

/-- A data row: an object, modelled as a string-keyed association list. -/
abbrev Row (α : Type) := List (String × α)

/-- Property read `row[key]`: first binding, `undefined` (`none`) if the key
is absent. -/
def rowGet (row : Row α) (key : String) : Option α :=
  match row with
  | [] => none
  | (k, v) :: rest => if k = key then some v else rowGet rest key

/-- One `dataset` entry: a name and its `data` array of rows. -/
structure SeriesData (α : Type) where
  name : String
  data : List (Row α)

/-- The flattening loop of `getNormalizedModel`: collect `set.data` across
all dataset entries, then project every row through `key`. -/
def flattenValues (dataset : List (SeriesData α)) (key : String) : List (Option α) :=
  (dataset.flatMap (fun s => s.data)).map (fun row => rowGet row key)

/-- One insertion into a JavaScript `Set`: ignored if already present,
appended otherwise (insertion order is preserved). -/
def insertUnique (acc : List (Option α)) (a : Option α) : List (Option α) :=
  if a ∈ acc then acc else acc ++ [a]

/-- `Array.from(new Set(allValues))`: deduplication preserving
first-occurrence order. -/
def jsSetDedup (l : List (Option α)) : List (Option α) :=
  l.foldl insertUnique []

/-- The value returned by a model hook, as far as truthiness and sequence
content go: an array (always truthy in JavaScript, even when empty), or one
of the falsy values `0`, `null`, `undefined`, `''`, `false`. -/
inductive HookResult (α : Type)
  | arr (l : List (Option α))
  | falsy

/-- The configured `model` entry: either not a function (the
`typeof modelUpdateFn === 'function'` guard fails) or a hook function. -/
inductive ModelHook (α : Type)
  | notFunction
  | fn (f : List (Option α) → HookResult α)

/-- `AxisModel.prototype.getNormalizedModel`: flatten, project, deduplicate,
then `(modelUpdateFn && typeof modelUpdateFn === 'function' &&
modelUpdateFn(model)) || model`. -/
def getNormalizedModel (dataset : List (SeriesData α)) (key : String)
    (hook : ModelHook α) : List (Option α) :=
  match hook with
  | .notFunction => jsSetDedup (flattenValues dataset key)
  | .fn f =>
    match f (jsSetDedup (flattenValues dataset key)) with
    | .arr l => l
    | .falsy => jsSetDedup (flattenValues dataset key)

/-- The default hook `DEF_FN = function () { return arguments[0]; }`
installed by the config merge when the user supplies no hook. -/
def defaultModelHook : ModelHook α := .fn (fun l => .arr l)

/-- Specification-style first-occurrence deduplication: keep each distinct
value exactly once, at the position of its first occurrence. -/
def firstOccurrences : List (Option α) → List (Option α)
  | [] => []
  | a :: rest => a :: firstOccurrences (rest.filter (fun b => decide (b ≠ a)))
termination_by l => l.length
decreasing_by
  exact Nat.lt_succ_of_le (List.length_filter_le _ _)

theorem firstOccurrences_nil : firstOccurrences ([] : List (Option α)) = [] := by
  rw [firstOccurrences.eq_def]

theorem firstOccurrences_cons (a : Option α) (rest : List (Option α)) :
    firstOccurrences (a :: rest) =
      a :: firstOccurrences (rest.filter (fun b => decide (b ≠ a))) := by
  rw [firstOccurrences.eq_def]

theorem foldl_insertUnique (l : List (Option α)) :
    ∀ acc, l.foldl insertUnique acc =
      acc ++ firstOccurrences (l.filter (fun b => decide (b ∉ acc))) := by
  induction l with
  | nil => intro acc; simp [firstOccurrences_nil]
  | cons a rest ih =>
    intro acc
    rw [List.foldl_cons, ih]
    by_cases hmem : a ∈ acc
    · simp only [insertUnique, if_pos hmem, List.filter_cons]
      have : decide (a ∉ acc) = false := by simp [hmem]
      rw [this]
      simp
    · simp only [insertUnique, if_neg hmem]
      have hfc : (a :: rest).filter (fun b => decide (b ∉ acc)) =
          a :: rest.filter (fun b => decide (b ∉ acc)) := by
        simp [List.filter_cons, hmem]
      rw [hfc, firstOccurrences_cons]
      have hfeq : rest.filter (fun b => decide (b ∉ acc ++ [a])) =
          (rest.filter (fun b => decide (b ∉ acc))).filter (fun b => decide (b ≠ a)) := by
        rw [List.filter_filter]
        apply List.filter_congr
        intro b _
        simp [List.mem_append, not_or, and_comm]
      rw [hfeq]
      simp [List.append_assoc]

theorem jsSetDedup_eq_firstOccurrences (l : List (Option α)) :
    jsSetDedup l = firstOccurrences l := by
  unfold jsSetDedup
  rw [foldl_insertUnique l []]
  simp

theorem mem_firstOccurrences_aux :
    ∀ (n : Nat) (l : List (Option α)), l.length ≤ n →
      ∀ b, (b ∈ firstOccurrences l ↔ b ∈ l) := by
  intro n
  induction n with
  | zero =>
    intro l hl b
    rw [Nat.le_zero, List.length_eq_zero] at hl
    subst hl
    simp [firstOccurrences_nil]
  | succ n ih =>
    intro l hl b
    cases l with
    | nil => simp [firstOccurrences_nil]
    | cons a rest =>
      rw [firstOccurrences_cons]
      have hlen : (rest.filter (fun b => decide (b ≠ a))).length ≤ n :=
        le_trans (List.length_filter_le _ _) (Nat.le_of_succ_le_succ hl)
      by_cases hba : b = a
      · subst hba; simp
      · simp only [List.mem_cons, ih _ hlen b, List.mem_filter]
        constructor
        · rintro (h | ⟨h, _⟩)
          · exact Or.inl h
          · exact Or.inr h
        · rintro (h | h)
          · exact Or.inl h
          · exact Or.inr ⟨h, by simp [hba]⟩

theorem mem_firstOccurrences (l : List (Option α)) (b : Option α) :
    b ∈ firstOccurrences l ↔ b ∈ l :=
  mem_firstOccurrences_aux l.length l le_rfl b

theorem nodup_firstOccurrences_aux :
    ∀ (n : Nat) (l : List (Option α)), l.length ≤ n →
      (firstOccurrences l).Nodup := by
  intro n
  induction n with
  | zero =>
    intro l hl
    rw [Nat.le_zero, List.length_eq_zero] at hl
    subst hl
    simp [firstOccurrences_nil]
  | succ n ih =>
    intro l hl
    cases l with
    | nil => simp [firstOccurrences_nil]
    | cons a rest =>
      rw [firstOccurrences_cons]
      have hlen : (rest.filter (fun b => decide (b ≠ a))).length ≤ n :=
        le_trans (List.length_filter_le _ _) (Nat.le_of_succ_le_succ hl)
      refine List.nodup_cons.mpr ⟨?_, ih _ hlen⟩
      intro hmem
      rw [mem_firstOccurrences] at hmem
      have := (List.mem_filter.mp hmem).2
      simp at this

theorem nodup_firstOccurrences (l : List (Option α)) :
    (firstOccurrences l).Nodup :=
  nodup_firstOccurrences_aux l.length l le_rfl

theorem toFinset_firstOccurrences (l : List (Option α)) :
    (firstOccurrences l).toFinset = l.toFinset := by
  ext b
  simp [List.mem_toFinset, mem_firstOccurrences]

/-- C3: With no model hook supplied (the default identity hook `DEF_FN`
applies), the constructed axis model is the sequence of distinct values of
the configured key across all rows of all series, flattened in dataset
order, each distinct value appearing exactly once at the position of its
first occurrence (`firstOccurrences`); in particular the model is
duplicate-free and its length equals the number of distinct key values in
the flattened dataset. -/
theorem claim3_default_model (dataset : List (SeriesData α)) (key : String) :
    getNormalizedModel dataset key defaultModelHook =
      firstOccurrences (flattenValues dataset key)
    ∧ (getNormalizedModel dataset key defaultModelHook).Nodup
    ∧ (getNormalizedModel dataset key defaultModelHook).length =
        (flattenValues dataset key).toFinset.card := by
  have heq : getNormalizedModel dataset key defaultModelHook =
      firstOccurrences (flattenValues dataset key) := by
    show jsSetDedup (flattenValues dataset key) = _
    exact jsSetDedup_eq_firstOccurrences _
  refine ⟨heq, ?_, ?_⟩
  · rw [heq]; exact nodup_firstOccurrences _
  · rw [heq, ← toFinset_firstOccurrences]
    exact (List.toFinset_card_of_nodup (nodup_firstOccurrences _)).symm

/-- C6: With a function model hook, the constructed axis model equals the
hook's return value applied to the deduplicated array whenever that return
value is truthy (an array, even an empty one), and equals the original
deduplicated array whenever the hook returns a falsy value. -/
theorem claim6_model_hook (dataset : List (SeriesData α)) (key : String)
    (f : List (Option α) → HookResult α) :
    (∀ l, f (jsSetDedup (flattenValues dataset key)) = .arr l →
      getNormalizedModel dataset key (.fn f) = l)
    ∧ (f (jsSetDedup (flattenValues dataset key)) = .falsy →
      getNormalizedModel dataset key (.fn f) =
        jsSetDedup (flattenValues dataset key)) := by
  constructor
  · intro l hf
    show (match f (jsSetDedup (flattenValues dataset key)) with
          | HookResult.arr l => l
          | HookResult.falsy => jsSetDedup (flattenValues dataset key)) = l
    rw [hf]
  · intro hf
    show (match f (jsSetDedup (flattenValues dataset key)) with
          | HookResult.arr l => l
          | HookResult.falsy => jsSetDedup (flattenValues dataset key)) =
      jsSetDedup (flattenValues dataset key)
    rw [hf]

end AxisModelSection

/-- Witness for C6 over `α := Nat` with one series of three rows (key "v"
values 1, 2, 1): a hook reversing the model wins, a hook returning a falsy
value falls back to the deduplicated model `[some 1, some 2]`. -/
theorem claim6_model_hook_witness :
    getNormalizedModel
        [⟨"s", [[("v", 1)], [("v", 2)], [("v", 1)]]⟩] "v"
        (ModelHook.fn (fun l => HookResult.arr l.reverse)) =
      [some 2, some 1]
    ∧ getNormalizedModel
        [⟨"s", [[("v", (1 : Nat))], [("v", 2)], [("v", 1)]]⟩] "v"
        (ModelHook.fn (fun _ => HookResult.falsy)) =
      [some 1, some 2] :=
  ⟨(claim6_model_hook [⟨"s", [[("v", 1)], [("v", 2)], [("v", 1)]]⟩] "v"
      (fun l => HookResult.arr l.reverse)).1 [some 2, some 1] (by rfl),
   (claim6_model_hook [⟨"s", [[("v", (1 : Nat))], [("v", 2)], [("v", 1)]]⟩] "v"
      (fun _ => HookResult.falsy)).2 (by rfl)⟩

/-! ### Color axis

Source: `colorAxisManager` — `ColorAxisBase` (`updatePreDrawingSpace`,
`getColorByDomain` dispatching to the variant's `colorRetrieverFn`),
`GradientColorAxis` (`getAdditionalSpace`, `getStopsConfiguration`) and
`SeriesColorAxis` (`getColorBySeriesName`, `getStopsConfiguration`).
Gradient-stop offsets are kept as numbers (the source appends the literal
`'%'`); text metrics are consumed as an external capability, so label
measurements enter the model as lists of rational heights. -/

/-- `DEF_COLOR = 'rgba(0, 0, 0, 1)'`. -/
def DEF_COLOR : String := "rgba(0, 0, 0, 1)"

/-- `Array.prototype.indexOf`: index of the first occurrence, `-1` when
absent. -/
def jsIndexOfAux : List String → String → Nat → Int
  | [], _, _ => -1
  | a :: rest, x, k => if a = x then (k : Int) else jsIndexOfAux rest x (k + 1)

def jsIndexOf (l : List String) (x : String) : Int := jsIndexOfAux l x 0

/-- `SeriesColorAxis.prototype.getColorBySeriesName` (installed as the
discrete variant's `colorRetrieverFn`, hence what
`ColorAxisBase.prototype.getColorByDomain` calls): exact `indexOf` match
against the label model, `colors[index] || DEF_COLOR` on a hit (a missing or
falsy color entry yields the default), `DEF_COLOR` on a miss.  A JavaScript
`undefined` color entry (index past the colors array) and the empty string
are both falsy; the model reads an out-of-range index as `none`. -/
def getColorBySeriesName (labelModel colors : List String) (name : String) : String :=
  if jsIndexOf labelModel name ≠ -1 then
    match colors.get? (jsIndexOf labelModel name).toNat with
    | some c => if c = "" then DEF_COLOR else c
    | none => DEF_COLOR
  else DEF_COLOR

theorem jsIndexOfAux_not_mem (l : List String) (x : String) :
    x ∉ l → ∀ k, jsIndexOfAux l x k = -1 := by
  induction l with
  | nil => intro _ k; rfl
  | cons a rest ih =>
    intro hx k
    have ha : ¬(a = x) := fun h => hx (h ▸ List.mem_cons_self a rest)
    simp only [jsIndexOfAux, if_neg ha]
    exact ih (fun h => hx (List.mem_cons_of_mem a h)) (k + 1)

theorem jsIndexOfAux_nodup_get (l : List String) (x : String) :
    l.Nodup → ∀ (t : Nat) (h : t < l.length), l.get ⟨t, h⟩ = x →
      ∀ k, jsIndexOfAux l x k = (k : Int) + t := by
  induction l with
  | nil => intro _ t h; simp at h
  | cons a rest ih =>
    intro hnd t h hget k
    cases t with
    | zero =>
      simp only [List.get] at hget
      simp [jsIndexOfAux, hget]
    | succ t' =>
      simp only [List.get] at hget
      have hmem : x ∈ rest := hget ▸ List.get_mem rest t' (Nat.lt_of_succ_lt_succ h)
      have ha : ¬(a = x) := fun hax =>
        (List.nodup_cons.mp hnd).1 (hax ▸ hmem)
      simp only [jsIndexOfAux, if_neg ha]
      rw [ih (List.nodup_cons.mp hnd).2 t' (Nat.lt_of_succ_lt_succ h) hget (k + 1)]
      push_cast
      ring

/-- C5: For a `SeriesColorAxis` whose label model is the ordered list of
dataset names (hence duplicate-free) with genuinely configured (non-empty)
color strings, `getColorByDomain` — i.e. `getColorBySeriesName` — returns
`colors[k]` when the queried value equals the label model entry at index `k`
and a color is configured at that index, and returns the default color
constant `'rgba(0, 0, 0, 1)'` when the value is not a member of the label
model or when the matched index exceeds the colors array. -/
theorem claim5_color_by_series (labelModel colors : List String) (v : String)
    (hnodup : labelModel.Nodup)
    (hcolors : ∀ c ∈ colors, c ≠ "") :
    (∀ (k : Nat) (hk : k < labelModel.length), labelModel.get ⟨k, hk⟩ = v →
      ∀ (hc : k < colors.length),
        getColorBySeriesName labelModel colors v = colors.get ⟨k, hc⟩)
    ∧ (v ∉ labelModel → getColorBySeriesName labelModel colors v = DEF_COLOR)
    ∧ (∀ (k : Nat) (hk : k < labelModel.length), labelModel.get ⟨k, hk⟩ = v →
        colors.length ≤ k → getColorBySeriesName labelModel colors v = DEF_COLOR) := by
  refine ⟨?_, ?_, ?_⟩
  · intro k hk hget hc
    have hidx : jsIndexOf labelModel v = (k : Int) := by
      rw [jsIndexOf, jsIndexOfAux_nodup_get labelModel v hnodup k hk hget 0]
      simp
    unfold getColorBySeriesName
    rw [hidx]
    have hne : ((k : Int) ≠ -1) := by omega
    rw [if_pos hne]
    have htn : ((k : Int)).toNat = k := Int.toNat_natCast k
    rw [htn]
    rw [List.get?_eq_get hc]
    have hcne : ¬(colors.get ⟨k, hc⟩ = "") :=
      hcolors _ (List.get_mem colors k hc)
    show (if colors.get ⟨k, hc⟩ = "" then DEF_COLOR else colors.get ⟨k, hc⟩) =
      colors.get ⟨k, hc⟩
    rw [if_neg hcne]
  · intro hmem
    have hidx : jsIndexOf labelModel v = -1 :=
      jsIndexOfAux_not_mem labelModel v hmem 0
    unfold getColorBySeriesName
    rw [hidx]
    simp
  · intro k hk hget hc
    have hidx : jsIndexOf labelModel v = (k : Int) := by
      rw [jsIndexOf, jsIndexOfAux_nodup_get labelModel v hnodup k hk hget 0]
      simp
    unfold getColorBySeriesName
    rw [hidx]
    have hne : ((k : Int) ≠ -1) := by omega
    rw [if_pos hne]
    have htn : ((k : Int)).toNat = k := Int.toNat_natCast k
    rw [htn]
    have hnone : colors.get? k = none := List.get?_eq_none.mpr hc
    rw [hnone]

/-- Witness for C5: labels `["a","b","c"]`, colors `["r","g"]`: exact match
at index 1 returns `"g"`, a non-member returns the default, the match at
index 2 (past the colors array) returns the default. -/
theorem claim5_color_by_series_witness :
    getColorBySeriesName ["a", "b", "c"] ["r", "g"] "b" = "g"
    ∧ getColorBySeriesName ["a", "b", "c"] ["r", "g"] "z" = DEF_COLOR
    ∧ getColorBySeriesName ["a", "b", "c"] ["r", "g"] "c" = DEF_COLOR := by
  obtain ⟨h1, h2, h3⟩ := claim5_color_by_series ["a", "b", "c"] ["r", "g"] "b"
    (by decide) (by decide)
  obtain ⟨_, h2z, _⟩ := claim5_color_by_series ["a", "b", "c"] ["r", "g"] "z"
    (by decide) (by decide)
  obtain ⟨_, _, h3c⟩ := claim5_color_by_series ["a", "b", "c"] ["r", "g"] "c"
    (by decide) (by decide)
  exact ⟨(h1 1 (by decide) rfl (by decide)).trans rfl,
    h2z (by decide),
    h3c 2 (by decide) rfl (by decide)⟩

/-- A gradient stop `{offset, 'stop-color', 'stop-opacity': 1}` of the
discrete (series) axis; offsets are integer percentages
(`floor(index / length * 100)`), the color is `colors[colorIndex]`
(JavaScript `undefined`, i.e. `none`, when the index is out of range). -/
structure SeriesStop where
  offset : ℤ
  stopColor : Option String
deriving DecidableEq

structure SeriesStopsConf where
  stopsConf : List SeriesStop
  breakRatios : List ℤ
deriving DecidableEq

/-- `floor(k / n * 100)` over exact rationals. -/
def floorPct (k n : Nat) : ℤ := Int.floor ((k : ℚ) / (n : ℚ) * 100)

theorem floorPct_eq_natDiv (k n : Nat) : floorPct k n = ((k * 100) / n : ℕ) := by
  unfold floorPct
  rw [div_mul_eq_mul_div]
  have h : ((k : ℚ) * 100) = ((k * 100 : ℕ) : ℚ) := by push_cast; ring
  rw [h, Rat.floor_natCast_div_natCast]
  exact (Int.ofNat_tdiv _ _).symm

/-- `SeriesColorAxis.prototype.getStopsConfiguration`: for each index
`1 ≤ index ≤ length - 1` the do-while body runs twice, pushing two stops at
the same offset `floor(index / length * 100)` — first with
`colors[index - 1]`, then with `colors[index]` — and `breakRatios` records
the offset once per index. -/
def seriesGetStopsConfiguration (labelModel colors : List String) : SeriesStopsConf :=
  { stopsConf := (List.range (labelModel.length - 1)).flatMap (fun t =>
      [⟨floorPct (t + 1) labelModel.length, colors.get? t⟩,
       ⟨floorPct (t + 1) labelModel.length, colors.get? (t + 1)⟩]),
    breakRatios := (List.range (labelModel.length - 1)).map
      (fun t => floorPct (t + 1) labelModel.length) }

theorem flatMap_pair_length {γ δ : Type} (l : List γ) (f g : γ → δ) :
    (l.flatMap (fun t => [f t, g t])).length = 2 * l.length := by
  induction l with
  | nil => rfl
  | cons a rest ih =>
    simp only [List.flatMap_cons, List.length_append, ih]
    simp [Nat.mul_succ, Nat.add_comm]

theorem flatMap_pair_get_even {γ δ : Type} (l : List γ) (f g : γ → δ) :
    ∀ q, (l.flatMap (fun t => [f t, g t])).get? (2 * q) = (l.get? q).map f := by
  induction l with
  | nil => intro q; rfl
  | cons a rest ih =>
    intro q
    cases q with
    | zero => rfl
    | succ q' =>
      have h2 : 2 * (q' + 1) = 2 * q' + 1 + 1 := by ring
      simp only [List.flatMap_cons, List.cons_append, List.singleton_append, h2,
        List.get?_cons_succ]
      exact ih q'

theorem flatMap_pair_get_odd {γ δ : Type} (l : List γ) (f g : γ → δ) :
    ∀ q, (l.flatMap (fun t => [f t, g t])).get? (2 * q + 1) = (l.get? q).map g := by
  induction l with
  | nil => intro q; rfl
  | cons a rest ih =>
    intro q
    cases q with
    | zero => rfl
    | succ q' =>
      have h2 : 2 * (q' + 1) + 1 = 2 * q' + 1 + 1 + 1 := by ring
      simp only [List.flatMap_cons, List.cons_append, List.singleton_append, h2,
        List.get?_cons_succ]
      exact ih q'

/-- C7: For a `SeriesColorAxis` with `N ≥ 2` labels, `getStopsConfiguration`
produces exactly `2 * (N - 1)` gradient stops: for each `1 ≤ k ≤ N - 1` it
emits two co-located stops at the identical offset `floor(k / N * 100)`
percent, the first with stop-color `colors[k-1]` and the second with
stop-color `colors[k]`; `breakRatios` is
`[floor(1/N*100), …, floor((N-1)/N*100)]` in increasing index order. -/
theorem claim7_series_stops (labelModel colors : List String)
    (hN : 2 ≤ labelModel.length) :
    (seriesGetStopsConfiguration labelModel colors).stopsConf.length =
      2 * (labelModel.length - 1)
    ∧ (∀ k, 1 ≤ k → k ≤ labelModel.length - 1 →
        (seriesGetStopsConfiguration labelModel colors).stopsConf.get? (2 * (k - 1)) =
          some ⟨floorPct k labelModel.length, colors.get? (k - 1)⟩
        ∧ (seriesGetStopsConfiguration labelModel colors).stopsConf.get?
            (2 * (k - 1) + 1) =
          some ⟨floorPct k labelModel.length, colors.get? k⟩)
    ∧ (seriesGetStopsConfiguration labelModel colors).breakRatios =
        (List.range (labelModel.length - 1)).map
          (fun t => floorPct (t + 1) labelModel.length) := by
  refine ⟨?_, ?_, rfl⟩
  · exact (flatMap_pair_length _ _ _).trans (by rw [List.length_range])
  · intro k hk1 hk2
    have hklt : k - 1 < labelModel.length - 1 := by omega
    have hrge : (List.range (labelModel.length - 1)).get? (k - 1) = some (k - 1) := by
      rw [List.get?_eq_getElem?]
      exact List.getElem?_range hklt
    have hsucc : k - 1 + 1 = k := by omega
    constructor
    · rw [seriesGetStopsConfiguration]
      rw [flatMap_pair_get_even, hrge]
      simp only [Option.map_some']
      rw [hsucc]
    · rw [seriesGetStopsConfiguration]
      rw [flatMap_pair_get_odd, hrge]
      simp only [Option.map_some']
      rw [hsucc]

/-- Witness for C7: three labels, three colors — four stops in two co-located
pairs at 33% and 66%, `breakRatios = [33, 66]`. -/
theorem claim7_series_stops_witness :
    (seriesGetStopsConfiguration ["a", "b", "c"] ["r", "g", "b"]).stopsConf.length = 4
    ∧ (seriesGetStopsConfiguration ["a", "b", "c"] ["r", "g", "b"]).stopsConf.get? 0 =
        some ⟨33, some "r"⟩
    ∧ (seriesGetStopsConfiguration ["a", "b", "c"] ["r", "g", "b"]).stopsConf.get? 1 =
        some ⟨33, some "g"⟩
    ∧ (seriesGetStopsConfiguration ["a", "b", "c"] ["r", "g", "b"]).stopsConf.get? 2 =
        some ⟨66, some "g"⟩
    ∧ (seriesGetStopsConfiguration ["a", "b", "c"] ["r", "g", "b"]).stopsConf.get? 3 =
        some ⟨66, some "b"⟩
    ∧ (seriesGetStopsConfiguration ["a", "b", "c"] ["r", "g", "b"]).breakRatios =
        [33, 66] := by
  obtain ⟨hlen, hks, hbr⟩ := claim7_series_stops ["a", "b", "c"] ["r", "g", "b"]
    (by decide)
  obtain ⟨he1, ho1⟩ := hks 1 (by decide) (by decide)
  obtain ⟨he2, ho2⟩ := hks 2 (by decide) (by decide)
  have hfp1 : floorPct 1 3 = 33 := by rw [floorPct_eq_natDiv]; decide
  have hfp2 : floorPct 2 3 = 66 := by rw [floorPct_eq_natDiv]; decide
  refine ⟨hlen, ?_, ?_, ?_, ?_, hbr.trans (by simp [List.range_succ, hfp1, hfp2])⟩
  · exact he1.trans (by rw [show (["a", "b", "c"] : List String).length = 3 from rfl, hfp1]; decide)
  · exact ho1.trans (by rw [show (["a", "b", "c"] : List String).length = 3 from rfl, hfp1]; decide)
  · exact he2.trans (by rw [show (["a", "b", "c"] : List String).length = 3 from rfl, hfp2]; decide)
  · exact ho2.trans (by rw [show (["a", "b", "c"] : List String).length = 3 from rfl, hfp2]; decide)

/-- A gradient stop of the continuous (gradient) axis: offset in (exact
rational) percent, stop-color `colors[index]`. -/
structure GradStop where
  offset : ℚ
  stopColor : Option String
deriving DecidableEq

structure GradStopsConf where
  stopsConf : List GradStop
  breakRatios : List ℚ
  values : List ℚ
deriving DecidableEq

/-- `GradientColorAxis.prototype.getStopsConfiguration`: the source takes
`min = values[0]` and `max = values[length - 1]` (the first and last
configured values — the code comment calls them "the extremes"), rescales
every value through `(values[index] - min) / (max - min) * 100`, and builds
one stop per value/color pair. -/
def gradientGetStopsConfiguration (values : List ℚ) (colors : List String) :
    GradStopsConf :=
  { stopsConf := (List.range values.length).map (fun k =>
      ⟨(values.getD k 0 - values.getD 0 0) /
        (values.getD (values.length - 1) 0 - values.getD 0 0) * 100,
       colors.get? k⟩),
    breakRatios := (List.range values.length).map (fun k =>
      (values.getD k 0 - values.getD 0 0) /
        (values.getD (values.length - 1) 0 - values.getD 0 0) * 100),
    values := values }

/-- The claim's reading of "min": the numeric minimum of the configured
values. -/
def listMinQ : List ℚ → ℚ
  | [] => 0
  | a :: rest => rest.foldl min a

/-- The claim's reading of "max": the numeric maximum of the configured
values. -/
def listMaxQ : List ℚ → ℚ
  | [] => 0
  | a :: rest => rest.foldl max a

/-- The offsets the claim predicts: each value rescaled against the numeric
extremes of the configured values. -/
def claimGradRatios (values : List ℚ) : List ℚ :=
  values.map (fun v =>
    (v - listMinQ values) / (listMaxQ values - listMinQ values) * 100)

/-- Counterexample to C8 as stated: for the descending configuration
`values = [100, 0]` the numeric extremes are `min = 0`, `max = 100` (and
`max ≠ min`), so the claim predicts offsets `[100%, 0%]` — but the source
uses `values[0]` as "min" and `values[length-1]` as "max" and produces
`[0%, 100%]`. -/
theorem claim8_counterexample :
    listMaxQ [100, 0] ≠ listMinQ [100, 0]
    ∧ (gradientGetStopsConfiguration [100, 0] ["#FF0000", "#0000FF"]).breakRatios ≠
        claimGradRatios [100, 0]
    ∧ (gradientGetStopsConfiguration [100, 0] ["#FF0000", "#0000FF"]).breakRatios =
        [0, 100]
    ∧ claimGradRatios [100, 0] = [100, 0] := by
  refine ⟨by norm_num [listMaxQ, listMinQ], ?_, ?_, ?_⟩
  · intro h
    have h1 : (gradientGetStopsConfiguration [100, 0] ["#FF0000", "#0000FF"]).breakRatios =
        [0, 100] := by
      norm_num [gradientGetStopsConfiguration, List.range_succ]
    have h2 : claimGradRatios [100, 0] = [100, 0] := by
      norm_num [claimGradRatios, listMinQ, listMaxQ]
    rw [h1, h2] at h
    exact absurd (List.head_eq_of_cons_eq h) (by norm_num)
  · norm_num [gradientGetStopsConfiguration, List.range_succ]
  · norm_num [claimGradRatios, listMinQ, listMaxQ]

theorem range_map_getD {β γ : Type} (f : β → γ) (d : β) :
    ∀ (l : List β), (List.range l.length).map (fun k => f (l.getD k d)) = l.map f := by
  intro l
  induction l with
  | nil => rfl
  | cons a rest ih =>
    simp only [List.length_cons, List.range_succ_eq_map, List.map_cons, List.map_map,
      List.getD_cons_zero, List.map_cons]
    refine congrArg (f a :: ·) ?_
    rw [← ih]
    apply List.map_congr_left
    intro k _
    simp [Function.comp]

theorem getD_zero_eq_head (l : List ℚ) (h : l ≠ []) : l.getD 0 0 = l.head h := by
  cases l with
  | nil => exact absurd rfl h
  | cons a rest => rfl

theorem getD_pred_length_eq_getLast (l : List ℚ) (h : l ≠ []) :
    l.getD (l.length - 1) 0 = l.getLast h := by
  have hlt : l.length - 1 < l.length := by
    cases l with
    | nil => exact absurd rfl h
    | cons a rest => simp
  rw [List.getD_eq_getElem l 0 hlt, List.getLast_eq_getElem]

/-- C8 (amended): For a `GradientColorAxis` with configured values
`v[0..n-1]` and colors `c[0..n-1]` such that the *first and last* configured
values differ (the source's "min" is `values[0]` and its "max" is
`values[length-1]`; for ascending-sorted values these coincide with the
numeric extremes), `getStopsConfiguration` produces exactly one gradient stop
per index `k`, with stop-color `c[k]` and offset
`(v[k] - v[0]) / (v[n-1] - v[0]) * 100` percent, and `breakRatios` lists
these rescaled percentages in configuration order. -/
theorem claim8_gradient_stops_amended (values : List ℚ) (colors : List String)
    (h0 : values ≠ []) (hne : values.getLast h0 ≠ values.head h0) :
    (gradientGetStopsConfiguration values colors).stopsConf.length = values.length
    ∧ (∀ (k : Nat) (hk : k < values.length),
        (gradientGetStopsConfiguration values colors).stopsConf.get? k =
          some ⟨(values.get ⟨k, hk⟩ - values.head h0) /
            (values.getLast h0 - values.head h0) * 100, colors.get? k⟩)
    ∧ (gradientGetStopsConfiguration values colors).breakRatios =
        values.map (fun v => (v - values.head h0) /
          (values.getLast h0 - values.head h0) * 100) := by
  refine ⟨?_, ?_, ?_⟩
  · simp [gradientGetStopsConfiguration]
  · intro k hk
    show ((List.range values.length).map (fun k =>
        (⟨(values.getD k 0 - values.getD 0 0) /
          (values.getD (values.length - 1) 0 - values.getD 0 0) * 100,
         colors.get? k⟩ : GradStop))).get? k = _
    have hrge : (List.range values.length).get? k = some k := by
      rw [List.get?_eq_getElem?]
      exact List.getElem?_range hk
    rw [List.get?_map, hrge]
    simp only [Option.map_some']
    rw [getD_zero_eq_head values h0, getD_pred_length_eq_getLast values h0,
      List.getD_eq_getElem values 0 hk]
    rfl
  · show (List.range values.length).map (fun k =>
        (values.getD k 0 - values.getD 0 0) /
          (values.getD (values.length - 1) 0 - values.getD 0 0) * 100) = _
    rw [getD_zero_eq_head values h0, getD_pred_length_eq_getLast values h0]
    exact range_map_getD
      (fun v => (v - values.head h0) / (values.getLast h0 - values.head h0) * 100) 0 values

/-- Witness for the amended C8 at `values = [0, 100]`,
`colors = ["#FF0000", "#0000FF"]`. -/
theorem claim8_gradient_stops_witness :
    (gradientGetStopsConfiguration [0, 100] ["#FF0000", "#0000FF"]).stopsConf.length = 2
    ∧ (gradientGetStopsConfiguration [0, 100] ["#FF0000", "#0000FF"]).stopsConf.get? 1 =
        some ⟨100, some "#0000FF"⟩
    ∧ (gradientGetStopsConfiguration [0, 100] ["#FF0000", "#0000FF"]).breakRatios =
        [0, 100] := by
  obtain ⟨hlen, hk, hbr⟩ := claim8_gradient_stops_amended [0, 100] ["#FF0000", "#0000FF"]
    (by decide) (by norm_num)
  refine ⟨hlen, ?_, ?_⟩
  · refine (hk 1 (by norm_num)).trans ?_
    norm_num
  · refine hbr.trans ?_
    norm_num

/-- `ColorAxisBase`'s fixed vertical stacking order
(`this.stackingOrder = 2` — after the grid body at 0 and the X axis at 1). -/
def colorAxisStackingOrder : Nat := 2

/-- The max-scan of `getAdditionalSpace`: `max = Number.NEGATIVE_INFINITY;
for each label height h: if (max < h) max = h`.  `NEGATIVE_INFINITY` is
modelled as `none`; a comparison against it always updates. -/
def maxLabelHeightJS (labelHeights : List ℚ) : Option ℚ :=
  labelHeights.foldl
    (fun m h => match m with
      | none => some h
      | some m0 => some (max m0 h))
    none

/-- `GradientColorAxis.prototype.getAdditionalSpace` (shared by the series
variant): `totalSpaceTaken = max + margin`, where `max` is the maximum label
text height and `margin` the label margin.  With an empty label model the
source's value is `-∞ + margin = -∞`, not a rational: modelled as `none`. -/
def getAdditionalSpace (labelHeights : List ℚ) (labelMargin : ℚ) : Option ℚ :=
  (maxLabelHeightJS labelHeights).map (fun m => m + labelMargin)

/-- `ColorAxisBase.prototype.updatePreDrawingSpace`:
`totalHeightTaken = colorAxisData.height + additionalSpaceTaken;
measurement.height -= totalHeightTaken + margin;
placeInStack(VERTICAL, this.stackingOrder)(this, {height: totalHeightTaken})`.
Returns the new body height together with the new vertical stack. -/
def colorAxisUpdatePreDrawingSpace (rectHeight outerMargin labelMargin : ℚ)
    (labelHeights : List ℚ) (body : ℚ) (vstack : List StackOrder)
    (selfInst : Nat) : Option (ℚ × List StackOrder) :=
  match getAdditionalSpace labelHeights labelMargin with
  | none => none
  | some additional =>
    some (body - (rectHeight + additional + outerMargin),
      placeInStack StackName.V vstack colorAxisStackingOrder selfInst
        ⟨rectHeight + additional, 0⟩)

theorem foldl_maxStep_some (l : List ℚ) :
    ∀ a : ℚ, l.foldl
        (fun m h => match m with
          | none => some h
          | some m0 => some (max m0 h))
        (some a) = some (l.foldl max a) := by
  induction l with
  | nil => intro a; rfl
  | cons h t ih => intro a; exact ih (max a h)

theorem le_foldl_max (l : List ℚ) : ∀ a : ℚ, a ≤ l.foldl max a := by
  induction l with
  | nil => intro a; exact le_refl a
  | cons h t ih =>
    intro a
    exact le_trans (le_max_left a h) (ih (max a h))

theorem mem_le_foldl_max (l : List ℚ) (b : ℚ) :
    b ∈ l → ∀ a : ℚ, b ≤ l.foldl max a := by
  induction l with
  | nil => intro hb; simp at hb
  | cons h t ih =>
    intro hb a
    rcases List.mem_cons.mp hb with hbh | hbt
    · subst hbh
      exact le_trans (le_max_right a b) (le_foldl_max t (max a b))
    · exact ih hbt (max a h)

theorem foldl_max_le (l : List ℚ) (M : ℚ) :
    ∀ a : ℚ, a ≤ M → (∀ b ∈ l, b ≤ M) → l.foldl max a ≤ M := by
  induction l with
  | nil => intro a ha _; exact ha
  | cons h t ih =>
    intro a ha hb
    exact ih (max a h) (max_le ha (hb h (List.mem_cons_self h t)))
      (fun b hbt => hb b (List.mem_cons_of_mem h hbt))

theorem maxLabelHeightJS_eq (labelHeights : List ℚ) (M : ℚ)
    (hmem : M ∈ labelHeights) (hub : ∀ h ∈ labelHeights, h ≤ M) :
    maxLabelHeightJS labelHeights = some M := by
  cases labelHeights with
  | nil => simp at hmem
  | cons h t =>
    unfold maxLabelHeightJS
    rw [List.foldl_cons, foldl_maxStep_some]
    refine congrArg some (le_antisymm ?_ ?_)
    · exact foldl_max_le t M h (hub h (List.mem_cons_self h t))
        (fun b hbt => hub b (List.mem_cons_of_mem h hbt))
    · rcases List.mem_cons.mp hmem with hMh | hMt
      · subst hMh; exact le_foldl_max t M
      · exact mem_le_foldl_max t M hMt h

/-- C9: For every color axis instance, `updatePreDrawingSpace` reserves a
total height equal to the axis rect height plus the additional label space
(the maximum label text height `M` plus the label margin) plus the outer
margin, subtracts that total from the shared body measurement's height, and
registers the component in the vertical stack at the fixed order index 2
(with reserved height `rect + M + labelMargin`, the outer margin being part
of the body subtraction only, as in the source). -/
theorem claim9_color_axis_space (rectHeight outerMargin labelMargin : ℚ)
    (labelHeights : List ℚ) (body : ℚ) (vstack : List StackOrder)
    (selfInst : Nat) (M : ℚ)
    (hmem : M ∈ labelHeights) (hub : ∀ h ∈ labelHeights, h ≤ M) :
    colorAxisUpdatePreDrawingSpace rectHeight outerMargin labelMargin
        labelHeights body vstack selfInst =
      some (body - (rectHeight + (M + labelMargin) + outerMargin),
        placeInStack StackName.V vstack 2 selfInst
          ⟨rectHeight + (M + labelMargin), 0⟩) := by
  unfold colorAxisUpdatePreDrawingSpace getAdditionalSpace
  rw [maxLabelHeightJS_eq labelHeights M hmem hub]
  rfl

/-- Witness for C9: rect height 15, outer margin 5, label margin 4, label
heights `[12, 10]` (max 12), body 600, empty vertical stack: the body
shrinks to `600 - (15 + 16 + 5) = 564` and the stack gains one entry with
reserved height 31 at position 0. -/
theorem claim9_color_axis_space_witness :
    colorAxisUpdatePreDrawingSpace 15 5 4 [12, 10] 600 [] 3 =
      some (564, [⟨3, ⟨31, 0⟩, 0⟩]) := by
  refine (claim9_color_axis_space 15 5 4 [12, 10] 600 [] 3 12
    (by norm_num) (by norm_num)).trans ?_
  norm_num [placeInStack, recomputePositions]

end GridMap
